import Mathlib

/-!
Shallow embedding of `src/changelist/_format.py`: change-note extraction from
pull requests, section classification of notes, and Markdown rendering.
Python strings are modelled as `List Char`; Python `set`s as lists with
membership-checked insertion; `datetime` timestamps as `Int`.
-/

/-- Python strings, modelled as lists of characters. -/
abbrev Str := List Char

/-- ASCII whitespace recognised by Python `str.strip()` with no argument. -/
def pyIsSpace (c : Char) : Bool :=
  decide (c = ' ' ∨ c = '\t' ∨ c = '\n' ∨ c = '\r' ∨ c = '\x0b' ∨ c = '\x0c')

/-- Models Python `str.strip()`: drop leading and trailing whitespace. -/
def pyStrip (s : Str) : Str :=
  ((s.dropWhile pyIsSpace).reverse.dropWhile pyIsSpace).reverse

/-- Models Python `str.rstrip(".")`: drop all trailing period characters. -/
def pyRStripDot (s : Str) : Str :=
  (s.reverse.dropWhile (fun c => decide (c = '.'))).reverse

/-- Fuel-driven core of `replaceSub`; the fuel is an upper bound on the
length of the remaining string, so it never runs out in `replaceSub`. -/
def replaceSubAux (pat rep : Str) : Nat → Str → Str
  | 0, s => s
  | _ + 1, [] => []
  | fuel + 1, c :: rest =>
    if pat ≠ [] ∧ (c :: rest).take pat.length = pat then
      rep ++ replaceSubAux pat rep fuel ((c :: rest).drop pat.length)
    else
      c :: replaceSubAux pat rep fuel rest

/-- Models Python `str.replace(pat, rep)` for a non-empty `pat`: replace
left-to-right, non-overlapping occurrences. -/
def replaceSub (pat rep : Str) (s : Str) : Str :=
  replaceSubAux pat rep s.length s

/-- Models Python `str.split("\n")`: split on every newline, keeping empty
pieces; the result is always non-empty. -/
def splitNl : Str → List Str
  | [] => [[]]
  | c :: rest =>
    match splitNl rest with
    | [] => [[c]]
    | h :: t => if c = '\n' then [] :: h :: t else (c :: h) :: t

/-- Decimal rendering of a natural number, as Python `str(n)` produces for a
non-negative int. -/
def natStr (n : Nat) : Str := (toString n).data

/-- Lower-casing of a whole string, as Python `str.lower()` (ASCII range). -/
def strLower (s : Str) : Str := s.map Char.toLower

/-- Lexicographic comparison of strings by code point, as Python `<=` on
`str`. -/
def strLe : Str → Str → Bool
  | [], _ => true
  | _ :: _, [] => false
  | a :: as, b :: bs =>
    if a.toNat < b.toNat then true
    else if b.toNat < a.toNat then false
    else strLe as bs

/-- Regular expressions over characters: the fragment of Python `re` used by
the label-to-section patterns of the classifier. -/
inductive Re : Type
  | fail : Re
  | eps : Re
  | chr : Char → Re
  | dot : Re
  | seq : Re → Re → Re
  | alt : Re → Re → Re
  | star : Re → Re
  deriving DecidableEq

/-- Whether the regex accepts the empty string. -/
def Re.nullable : Re → Bool
  | .fail => false
  | .eps => true
  | .chr _ => false
  | .dot => false
  | .seq a b => a.nullable && b.nullable
  | .alt a b => a.nullable || b.nullable
  | .star _ => true

/-- Brzozowski derivative, with the case-insensitive comparison performed by
patterns compiled with `re.IGNORECASE`; `.` does not match a newline, as in
Python without `re.DOTALL`. -/
def Re.deriv (r : Re) (c : Char) : Re :=
  match r with
  | .fail => .fail
  | .eps => .fail
  | .chr d => if d.toLower = c.toLower then .eps else .fail
  | .dot => if c = '\n' then .fail else .eps
  | .seq a b =>
    if a.nullable then .alt (.seq (a.deriv c) b) (b.deriv c)
    else .seq (a.deriv c) b
  | .alt a b => .alt (a.deriv c) (b.deriv c)
  | .star a => .seq (a.deriv c) (.star a)

/-- Whether the whole string is in the (case-folded) language of the regex. -/
def Re.acceptsCI (r : Re) (s : Str) : Bool :=
  (s.foldl Re.deriv r).nullable

/-- Models Python `compiled.match(s)` truthiness for a pattern compiled with
`re.IGNORECASE`: the match is anchored at the start of `s` but need not cover
all of it, so it succeeds exactly when some prefix of `s` is accepted. -/
def Re.matchAtStart (r : Re) (s : Str) : Bool :=
  (List.range (s.length + 1)).any (fun n => r.acceptsCI (s.take n))

/-- A GitHub label attached to a pull request (`pr.labels` elements). -/
structure GhLabel : Type where
  name : Str
  deriving DecidableEq

/-- The fields of a pull request that `_format.py` reads. `body` is `none`
for a missing body; `merged_at` is the merge timestamp. -/
structure PullRequest : Type where
  body : Option Str
  title : Str
  labels : List GhLabel
  number : Nat
  html_url : Str
  merged_at : Int
  deriving DecidableEq

/-- One match of the summary pattern in a pull-request body: the `summary`
named group, and the optional `label` named group (`none` when the group did
not participate in the match, `some []` when it captured an empty string). -/
structure ReMatch : Type where
  summary : Str
  label : Option Str
  deriving DecidableEq

/-- `ChangeNote`: an atomic, immutable change record (the frozen dataclass). -/
structure ChangeNote : Type where
  content : Str
  reference_name : Str
  reference_url : Str
  labels : List Str
  timestamp : Int
  deriving DecidableEq

/-- The note built from one pattern match of one pull request: the body of the
inner loop of `ChangeNote.from_pull_requests`. -/
def noteOfMatch (pr : PullRequest) (m : ReMatch) : ChangeNote :=
  { content := pyStrip m.summary
    reference_name := '#' :: natStr pr.number
    reference_url := pr.html_url
    labels :=
      match m.label with
      | some l => [l]
      | none => pr.labels.map GhLabel.name
    timestamp := pr.merged_at }

/-- The match tuple used for one pull request: the matches the compiled
summary pattern finds in the body (`finditer` models
`pr_summary_regex.finditer`), or the title-fallback match when the body is
absent or empty (Python falsy) or yields no match. -/
def matchesOfPR (finditer : Str → List ReMatch) (pr : PullRequest) : List ReMatch :=
  match pr.body with
  | none => [{ summary := pr.title, label := none }]
  | some b =>
    if b = [] then [{ summary := pr.title, label := none }]
    else
      match finditer b with
      | [] => [{ summary := pr.title, label := none }]
      | m :: ms => m :: ms

/-- The notes generated from one pull request, in match order, before the
set-level deduplication of `from_pull_requests`. -/
def notesOfPR (finditer : Str → List ReMatch) (pr : PullRequest) : List ChangeNote :=
  (matchesOfPR finditer pr).map (noteOfMatch pr)

/-- Models `set.add` on a Python set represented as a duplicate-free list in
insertion order. -/
def addNote (notes : List ChangeNote) (n : ChangeNote) : List ChangeNote :=
  if n ∈ notes then notes else notes ++ [n]

/-- `ChangeNote.from_pull_requests`: all notes of all pull requests collected
into a value-deduplicated set. -/
def from_pull_requests (finditer : Str → List ReMatch) (prs : List PullRequest) :
    List ChangeNote :=
  prs.foldl (fun acc pr => (notesOfPR finditer pr).foldl addNote acc) []

/-- Ordered dictionary from section titles to note buckets, modelling the
`OrderedDict[str, set[ChangeNote]]` of the classifier. -/
abbrev Buckets := List (Str × List ChangeNote)

/-- Lookup of a key's bucket; missing keys read as the empty bucket. -/
def getB : Buckets → Str → List ChangeNote
  | [], _ => []
  | (k0, v) :: rest, k => if k0 = k then v else getB rest k

/-- Whether the dictionary has the key. -/
def hasK (m : Buckets) (k : Str) : Bool :=
  m.any (fun p => decide (p.1 = k))

/-- Models `d[k] = v` on an ordered dictionary: update in place when the key
exists (keeping its position), else append the new key at the end. -/
def setKey : Buckets → Str → List ChangeNote → Buckets
  | [], k, v => [(k, v)]
  | (k0, v0) :: rest, k, v =>
    if k0 = k then (k0, v) :: rest else (k0, v0) :: setKey rest k v

/-- Models `d[k].add(note)`: membership-checked insertion into the bucket of
an existing key; a missing key leaves the dictionary unchanged. -/
def addToBucket (m : Buckets) (k : Str) (n : ChangeNote) : Buckets :=
  m.map (fun p => if p.1 = k then (p.1, addNote p.2 n) else p)

/-- The string `"Other"`, title of the catch-all section. -/
def otherTitle : Str := "Other".data

/-- First-occurrence deduplication of a list of section titles: the key order
an ordered dictionary ends up with after assigning each title in turn, since
re-assigning an existing key keeps its position. -/
def dedupFirst (l : List Str) : List Str :=
  l.foldl (fun acc s => if s ∈ acc then acc else acc ++ [s]) []

/-- The pre-seeded ordered dictionary: one empty bucket per configured section
title in configuration order, then the `"Other"` bucket. -/
def seedBuckets (lmap : List (Re × Str)) : Buckets :=
  setKey (lmap.foldl (fun m p => setKey m p.2 []) []) otherTitle []

/-- The matching sections of one note: titles of configured patterns that
match (anchored, case-insensitive) at least one of the note's labels, in
configuration order. -/
def matchingSections (lmap : List (Re × Str)) (note : ChangeNote) : List Str :=
  (lmap.filter (fun p => note.labels.any (fun l => p.1.matchAtStart l))).map
    (fun p => p.2)

/-- One iteration of the classification loop: add the note to every matching
bucket; when nothing matches, add it to `"Other"` and append a diagnostic
carrying the note's reference URL (the `logger.warning` call). -/
def classifyStep (lmap : List (Re × Str)) (st : Buckets × List Str)
    (note : ChangeNote) : Buckets × List Str :=
  let ms := matchingSections lmap note
  let b := ms.foldl (fun m s => addToBucket m s note) st.1
  if ms = [] then (addToBucket b otherTitle note, st.2 ++ [note.reference_url])
  else (b, st.2)

/-- The whole classification (`_notes_by_section` plus its logged
diagnostics): fold the loop over the note set. -/
def classifyAll (lmap : List (Re × Str)) (notes : List ChangeNote) :
    Buckets × List Str :=
  notes.foldl (classifyStep lmap) (seedBuckets lmap, [])

/-- A GitHub user as read by the contributor section: login handle, optional
display name (Python falsy when empty), and profile URL. -/
structure NamedUser : Type where
  login : Str
  name : Option Str
  html_url : Str
  deriving DecidableEq

/-- The Markdown formatter's immutable fields. Python sets are carried as
duplicate-free lists in iteration order; the label-to-section mapping keeps
configuration order. -/
structure MdFormatter : Type where
  repo_name : Str
  change_notes : List ChangeNote
  authors : List NamedUser
  reviewers : List NamedUser
  version : Str
  title_template : Str
  intro_template : Str
  outro_template : Str
  label_section_map : List (Re × Str)
  ignored_user_logins : List Str

/-- Models `template.format(repo_name=..., version=...)` for templates whose
only placeholders are `{repo_name}` and `{version}`. -/
def pyFormat (template repoName version : Str) : Str :=
  replaceSub ("{version}".data) version (replaceSub ("{repo_name}".data) repoName template)

/-- `_notes_by_section`: the ordered section-to-bucket dictionary. -/
def MdFormatter.notesBySection (f : MdFormatter) : Buckets :=
  (classifyAll f.label_section_map f.change_notes).1

/-- The reference URLs logged while classifying, in emission order. -/
def MdFormatter.classifierDiags (f : MdFormatter) : List Str :=
  (classifyAll f.label_section_map f.change_notes).2

/-- `_format_link` of the Markdown formatter: an inline `[name](target)`. -/
def formatLink (name target : Str) : Str :=
  '[' :: name ++ [']', '('] ++ target ++ [')']

/-- `_sanitize_text` of the Markdown formatter: strip surrounding whitespace,
then replace CRLF and LF sequences by single spaces. -/
def sanitizeText (text : Str) : Str :=
  replaceSub ['\n'] [' '] (replaceSub ['\r', '\n'] [' '] (pyStrip text))

/-- `_format_section_title` of the Markdown formatter: one line of `level`
hash marks, a space, the title, and a newline. -/
def formatSectionTitle (title : Str) (level : Nat) : List Str :=
  [List.replicate level '#' ++ ' ' :: title ++ ['\n']]

/-- `_format_change_note`: the single rendered line of one note. -/
def formatChangeNote (note : ChangeNote) : List Str :=
  ["- ".data ++ pyRStripDot (sanitizeText note.content) ++ " (".data ++
    formatLink note.reference_name note.reference_url ++ ").\n".data]

/-- Comparison of notes by merge timestamp, the sort key of
`_format_change_section`. -/
def noteTsLe (a b : ChangeNote) : Prop := a.timestamp ≤ b.timestamp

instance : DecidableRel noteTsLe :=
  fun a b => inferInstanceAs (Decidable (a.timestamp ≤ b.timestamp))

/-- Models `sorted(notes, key=lambda note: note.timestamp)`: an
ordering-correct permutation of the bucket; the source's tie order is the
incidental set iteration order and is left unspecified. -/
def sortNotes (notes : List ChangeNote) : List ChangeNote :=
  List.insertionSort noteTsLe notes

/-- `_format_change_section`: nothing at all for an empty bucket, otherwise a
level-2 heading, a blank line, one line per note sorted by timestamp, and a
trailing blank line. -/
def formatChangeSection (title : Str) (notes : List ChangeNote) : List Str :=
  if notes = [] then []
  else
    formatSectionTitle title 2 ++ ["\n".data] ++
      ((sortNotes notes).map formatChangeNote).flatten ++ ["\n".data]

/-- `_format_user_line`: `- Name ([@login](url))` when a display name is
present (Python truthy), else `- [@login](url)`, newline-terminated. -/
def formatUserLine (u : NamedUser) : Str :=
  let link := formatLink ('@' :: u.login) u.html_url
  let line :=
    match u.name with
    | some n => if n = [] then link else n ++ " (".data ++ link ++ [')']
    | none => link
  "- ".data ++ line ++ ['\n']

/-- Comparison of rendered lines by their lower-cased text, the sort key
`lambda s: s.lower()` of the contributor section. -/
def lineLe (a b : Str) : Prop := strLe (strLower a) (strLower b) = true

instance : DecidableRel lineLe :=
  fun a b => inferInstanceAs (Decidable (strLe (strLower a) (strLower b) = true))

/-- Models `sorted(lines, key=lambda s: s.lower())`. -/
def sortLines (ls : List Str) : List Str := List.insertionSort lineLe ls

/-- Models the set comprehension over users: keep iteration order, drop
value-equal duplicates. -/
def dedupUsers (us : List NamedUser) : List NamedUser :=
  us.foldl (fun acc u => if u ∈ acc then acc else acc ++ [u]) []

/-- The ignored-login filtering comprehension of
`_format_contributor_section`. -/
def filteredUsers (ignored : List Str) (us : List NamedUser) : List NamedUser :=
  dedupUsers (us.filter (fun u => decide (u.login ∉ ignored)))

/-- `_format_contributor_section`: unconditional heading, then for authors
and reviewers a count line computed after ignored-login filtering, a blank
line, and the user lines sorted by lower-cased rendered text. -/
def formatContributorSection (f : MdFormatter) (authors reviewers : List NamedUser) :
    List Str :=
  let as := filteredUsers f.ignored_user_logins authors
  let rs := filteredUsers f.ignored_user_logins reviewers
  formatSectionTitle ("Contributors".data) 2 ++ ["\n".data] ++
    [natStr as.length ++ " authors added to this release (alphabetically):\n".data,
      "\n".data] ++
    sortLines (as.map formatUserLine) ++ ["\n".data] ++
    [natStr rs.length ++ " reviewers added to this release (alphabetically):\n".data,
      "\n".data] ++
    sortLines (rs.map formatUserLine) ++ ["\n".data]

/-- `_format_intro`: the formatted intro template split into
newline-terminated lines. -/
def formatIntro (f : MdFormatter) : List Str :=
  (splitNl (pyFormat f.intro_template f.repo_name f.version)).map (fun l => l ++ ['\n'])

/-- `_format_outro`: the formatted outro template split into
newline-terminated lines. -/
def formatOutro (f : MdFormatter) : List Str :=
  (splitNl (pyFormat f.outro_template f.repo_name f.version)).map (fun l => l ++ ['\n'])

/-- `iter_lines`: the whole document as its list of emitted lines. -/
def MdFormatter.iterLines (f : MdFormatter) : List Str :=
  formatSectionTitle (pyFormat f.title_template f.repo_name f.version) 1 ++
    ["\n".data] ++
    formatIntro f ++
    ((f.notesBySection).map (fun p => formatChangeSection p.1 p.2)).flatten ++
    formatContributorSection f f.authors f.reviewers ++
    formatOutro f

/-- The `document` property: `"".join(self.iter_lines())`. -/
def MdFormatter.document (f : MdFormatter) : Str :=
  (f.iterLines).flatten

/-- A literal pattern for the word `bug`, used by concrete instances. -/
def reBug : Re := .seq (.chr 'b') (.seq (.chr 'u') (.chr 'g'))

/-- A concrete label. -/
def wLabelBug : GhLabel := { name := "bug".data }

/-- A concrete pull request with no body. -/
def wPRTitle : PullRequest :=
  { body := none, title := " Fix bug ".data, labels := [wLabelBug], number := 7,
    html_url := "http-pr7".data, merged_at := 5 }

/-- A concrete pull request with a body. -/
def wPRBody : PullRequest :=
  { body := some ("Part one.\nPart two.".data), title := "t".data,
    labels := [wLabelBug], number := 8, html_url := "http-pr8".data, merged_at := 6 }

/-- A concrete note carrying a `bug` label. -/
def wNoteBug : ChangeNote :=
  { content := "Fix".data, reference_name := "#1".data, reference_url := "u1".data,
    labels := ["bug".data], timestamp := 3 }

/-- A concrete note whose label matches no configured pattern. -/
def wNoteMisc : ChangeNote :=
  { content := "Misc".data, reference_name := "#2".data, reference_url := "u2".data,
    labels := ["docs".data], timestamp := 1 }

/-- A concrete contributor. -/
def wUserBob : NamedUser := { login := "bob".data, name := none, html_url := "ub".data }

/-- A concrete contributor whose login starts with an upper-case letter. -/
def wUserAlice : NamedUser :=
  { login := "Alice".data, name := none, html_url := "ua".data }

/-- A concrete contributor with an ignored login. -/
def wUserBot : NamedUser := { login := "bot".data, name := none, html_url := "ubot".data }

/-- A concrete formatter over the fixtures above. -/
def wFmt : MdFormatter :=
  { repo_name := "repo".data, change_notes := [wNoteBug, wNoteMisc],
    authors := [wUserBob, wUserAlice, wUserBot], reviewers := [wUserBot],
    version := "1.0".data, title_template := "{repo_name} {version}".data,
    intro_template := "Intro".data, outro_template := "Outro".data,
    label_section_map := [(reBug, "Bug Fixes".data)],
    ignored_user_logins := ["bot".data] }

/-- A concrete formatter whose configured section titles include `"Other"`
itself. -/
def wFmtOther : MdFormatter :=
  { repo_name := "repo".data, change_notes := [], authors := [], reviewers := [],
    version := "1.0".data, title_template := "{repo_name} {version}".data,
    intro_template := "Intro".data, outro_template := "Outro".data,
    label_section_map := [(reBug, "Other".data), (reBug, "Bugs".data)],
    ignored_user_logins := [] }

/-- A concrete match with an explicit label capture. -/
def wMatchLabeled : ReMatch := { summary := "Add API".data, label := some ("enhancement".data) }

/-- A concrete match with no label capture. -/
def wMatchPlain : ReMatch := { summary := "Part one.".data, label := none }

/-- A concrete match whose label group captured an empty string. -/
def wMatchEmptyCapture : ReMatch := { summary := "Fix stuff".data, label := some [] }

/-- A concrete finditer result for a body with two matches. -/
def wFinditer : Str → List ReMatch := fun _ => [wMatchLabeled, wMatchPlain]

/-- A concrete finditer result with a single empty-capture match. -/
def wFinditerEmptyCapture : Str → List ReMatch := fun _ => [wMatchEmptyCapture]

theorem char_toNat_ofNat {m : Nat} (h : m.isValidChar) : (Char.ofNat m).toNat = m := by
  simp only [Char.ofNat, dif_pos h, Char.ofNatAux, Char.toNat, UInt32.toNat]
  have hm : m < 2 ^ 32 := by
    rcases h with h | h
    · omega
    · omega
  simp [BitVec.toNat_ofNatLt]

theorem toLower_eq_nl_iff (c : Char) : c.toLower = '\n' ↔ c = '\n' := by
  constructor
  · intro h
    unfold Char.toLower at h
    by_cases hc : c.toNat ≥ 65 ∧ c.toNat ≤ 90
    · rw [if_pos hc] at h
      exfalso
      have hvalid : (c.toNat + 32).isValidChar := by
        left
        omega
      have hv : (Char.ofNat (c.toNat + 32)).toNat = c.toNat + 32 := char_toNat_ofNat hvalid
      rw [h] at hv
      have : ('\n').toNat = 10 := by decide
      omega
    · rw [if_neg hc] at h
      exact h
  · intro h
    subst h
    decide

theorem strLe_total (a b : Str) : strLe a b = true ∨ strLe b a = true := by
  induction a generalizing b with
  | nil => left; rfl
  | cons x xs ih =>
    cases b with
    | nil => right; rfl
    | cons y ys =>
      simp only [strLe]
      rcases Nat.lt_trichotomy x.toNat y.toNat with h | h | h
      · left
        rw [if_pos h]
      · rw [if_neg (by omega), if_neg (by omega), if_neg (by omega), if_neg (by omega)]
        exact ih ys
      · right
        rw [if_pos h]

theorem strLe_trans {a b c : Str} (h1 : strLe a b = true) (h2 : strLe b c = true) :
    strLe a c = true := by
  induction a generalizing b c with
  | nil => rfl
  | cons x xs ih =>
    cases b with
    | nil => simp [strLe] at h1
    | cons y ys =>
      cases c with
      | nil => simp [strLe] at h2
      | cons z zs =>
        simp only [strLe] at h1 h2 ⊢
        split_ifs at h1 h2 ⊢ <;> try rfl
        all_goals try omega
        all_goals exact ih h1 h2

theorem deriv_congr (r : Re) {c d : Char} (h : c.toLower = d.toLower) :
    r.deriv c = r.deriv d := by
  induction r with
  | fail => rfl
  | eps => rfl
  | chr e =>
    simp only [Re.deriv, h]
  | dot =>
    simp only [Re.deriv]
    have hnd : (c = '\n') ↔ (d = '\n') := by
      rw [← toLower_eq_nl_iff c, ← toLower_eq_nl_iff d, h]
    by_cases hc : c = '\n'
    · rw [if_pos hc, if_pos (hnd.mp hc)]
    · rw [if_neg hc, if_neg (fun hd => hc (hnd.mpr hd))]
  | seq a b iha ihb => simp only [Re.deriv, iha, ihb]
  | alt a b iha ihb => simp only [Re.deriv, iha, ihb]
  | star a iha => simp only [Re.deriv, iha]

theorem acceptsCI_congr (r : Re) {s t : Str}
    (h : s.map Char.toLower = t.map Char.toLower) :
    r.acceptsCI s = r.acceptsCI t := by
  induction s generalizing r t with
  | nil =>
    cases t with
    | nil => rfl
    | cons y ys => simp at h
  | cons x xs ih =>
    cases t with
    | nil => simp at h
    | cons y ys =>
      simp only [List.map_cons, List.cons.injEq] at h
      show (xs.foldl Re.deriv (r.deriv x)).nullable = (ys.foldl Re.deriv (r.deriv y)).nullable
      rw [deriv_congr r h.1]
      exact ih (r.deriv y) h.2

theorem matchAtStart_congr (r : Re) {s t : Str}
    (h : s.map Char.toLower = t.map Char.toLower) :
    r.matchAtStart s = r.matchAtStart t := by
  have hlen : s.length = t.length := by
    have hc := congrArg List.length h
    simpa using hc
  simp only [Re.matchAtStart, hlen]
  congr 1
  funext n
  apply acceptsCI_congr
  rw [List.map_take, List.map_take, h]

theorem matchAtStart_iff (r : Re) (s : Str) :
    r.matchAtStart s = true ↔ ∃ n, n ≤ s.length ∧ r.acceptsCI (s.take n) = true := by
  simp only [Re.matchAtStart, List.any_eq_true, List.mem_range]
  constructor
  · rintro ⟨n, hn, hacc⟩
    exact ⟨n, by omega, hacc⟩
  · rintro ⟨n, hn, hacc⟩
    exact ⟨n, by omega, hacc⟩
theorem replaceSubAux_fuel (pat rep : Str) :
    ∀ f1 f2 s, s.length ≤ f1 → s.length ≤ f2 →
      replaceSubAux pat rep f1 s = replaceSubAux pat rep f2 s := by
  intro f1
  induction f1 with
  | zero =>
    intro f2 s hs1 _
    have hs : s = [] := List.length_eq_zero.mp (Nat.le_zero.mp hs1)
    subst hs
    cases f2 <;> rfl
  | succ g1 ih =>
    intro f2 s hs1 hs2
    cases s with
    | nil => cases f2 <;> rfl
    | cons c rest =>
      cases f2 with
      | zero => simp at hs2
      | succ g2 =>
        simp only [replaceSubAux]
        split_ifs with hcond
        · have hplen : 1 ≤ pat.length := by
            cases hp : pat.length with
            | zero => exact absurd (List.length_eq_zero.mp hp) hcond.1
            | succ k => omega
          have hd : ((c :: rest).drop pat.length).length ≤ g1 := by
            simp only [List.length_drop, List.length_cons]
            simp only [List.length_cons] at hs1
            omega
          have hd2 : ((c :: rest).drop pat.length).length ≤ g2 := by
            simp only [List.length_drop, List.length_cons]
            simp only [List.length_cons] at hs2
            omega
          rw [ih g2 _ hd hd2]
        · have hr1 : rest.length ≤ g1 := by
            simp only [List.length_cons] at hs1
            omega
          have hr2 : rest.length ≤ g2 := by
            simp only [List.length_cons] at hs2
            omega
          rw [ih g2 rest hr1 hr2]

theorem replaceSub_nil (pat rep : List Char) : replaceSub pat rep [] = [] := rfl

theorem replaceSub_cons (pat rep : Str) (c : Char) (rest : Str) :
    replaceSub pat rep (c :: rest) =
      if pat ≠ [] ∧ (c :: rest).take pat.length = pat then
        rep ++ replaceSub pat rep ((c :: rest).drop pat.length)
      else c :: replaceSub pat rep rest := by
  show replaceSubAux pat rep (rest.length + 1) (c :: rest) = _
  simp only [replaceSubAux]
  split_ifs with hcond
  · congr 1
    apply replaceSubAux_fuel
    · have hplen : 1 ≤ pat.length := by
        cases hp : pat.length with
        | zero => exact absurd (List.length_eq_zero.mp hp) hcond.1
        | succ k => omega
      simp only [List.length_drop, List.length_cons]
      omega
    · exact Nat.le_refl _
  · rfl

theorem replaceSub_single (a : Char) (rep : List Char) (c : Char) (rest : List Char) :
    replaceSub [a] rep (c :: rest) =
      if c = a then rep ++ replaceSub [a] rep rest
      else c :: replaceSub [a] rep rest := by
  rw [replaceSub_cons]
  by_cases hca : c = a
  · rw [if_pos ⟨by simp, by simp [hca]⟩, if_pos hca]
    simp
  · rw [if_neg, if_neg hca]
    intro hcontra
    have hc2 := hcontra.2
    simp at hc2
    exact hca hc2

theorem not_mem_replaceSub_single {a : Char} {rep : List Char} (hrep : a ∉ rep)
    (s : List Char) : a ∉ replaceSub [a] rep s := by
  induction s with
  | nil => rw [replaceSub_nil]; simp
  | cons c rest ih =>
    rw [replaceSub_single]
    by_cases hca : c = a
    · rw [if_pos hca]
      simp only [List.mem_append]
      rintro (h | h)
      · exact hrep h
      · exact ih h
    · rw [if_neg hca]
      simp only [List.mem_cons]
      rintro (h | h)
      · exact hca h.symm
      · exact ih h

theorem mem_notesOfPR_of_mem {f : Str → List ReMatch} {pr : PullRequest} {b : Str}
    {m : ReMatch} (hb : pr.body = some b) (hne : b ≠ []) (hm : m ∈ f b) :
    noteOfMatch pr m ∈ notesOfPR f pr := by
  simp only [notesOfPR, matchesOfPR, hb]
  rw [if_neg hne]
  cases hf : f b with
  | nil =>
    rw [hf] at hm
    simp at hm
  | cons m0 ms =>
    rw [hf] at hm
    exact List.mem_map_of_mem _ hm

/-- C4: a pull request whose body is absent, empty, or whitespace-only with no
pattern match, yields exactly one note: the stripped title as content, the
hash-prefixed number as reference name, and the request's URL and timestamp. -/
theorem c4_title_fallback (f : Str → List ReMatch) (pr : PullRequest)
    (h : pr.body = none ∨ pr.body = some [] ∨
      ∃ b, pr.body = some b ∧ pyStrip b = [] ∧ f b = []) :
    notesOfPR f pr =
      [{ content := pyStrip pr.title, reference_name := '#' :: natStr pr.number,
         reference_url := pr.html_url, labels := pr.labels.map GhLabel.name,
         timestamp := pr.merged_at }] := by
  rcases h with h | h | ⟨b, hb, hws, hf⟩
  · simp [notesOfPR, matchesOfPR, h, noteOfMatch]
  · simp [notesOfPR, matchesOfPR, h, noteOfMatch]
  · by_cases hbe : b = []
    · simp [notesOfPR, matchesOfPR, hb, hbe, noteOfMatch]
    · simp [notesOfPR, matchesOfPR, hb, hbe, hf, noteOfMatch]

theorem c4_title_fallback_witness :
    (wPRTitle.body = none ∨ wPRTitle.body = some [] ∨
      ∃ b, wPRTitle.body = some b ∧ pyStrip b = [] ∧ (fun _ => ([] : List ReMatch)) b = []) ∧
    notesOfPR (fun _ => []) wPRTitle =
      [{ content := "Fix bug".data, reference_name := "#7".data,
         reference_url := "http-pr7".data, labels := ["bug".data], timestamp := 5 }] :=
  ⟨Or.inl rfl, by
    rw [c4_title_fallback (fun _ => []) wPRTitle (Or.inl rfl)]
    decide⟩

/-- C3: a match with an explicit label capture yields a note whose labels are
exactly that single label; a match with no label capture yields the request's
label names in order. -/
theorem c3_label_policy (f : Str → List ReMatch) (pr : PullRequest) (b : Str)
    (m : ReMatch) (hb : pr.body = some b) (hne : b ≠ []) (hm : m ∈ f b) :
    noteOfMatch pr m ∈ notesOfPR f pr ∧
    (∀ l, m.label = some l → l ≠ [] → (noteOfMatch pr m).labels = [l]) ∧
    (m.label = none → (noteOfMatch pr m).labels = pr.labels.map GhLabel.name) := by
  refine ⟨mem_notesOfPR_of_mem hb hne hm, ?_, ?_⟩
  · intro l hl _
    simp [noteOfMatch, hl]
  · intro hl
    simp [noteOfMatch, hl]

theorem c3_label_policy_witness :
    (wPRBody.body = some ("Part one.\nPart two.".data) ∧
      ("Part one.\nPart two.".data : Str) ≠ [] ∧
      wMatchLabeled ∈ wFinditer ("Part one.\nPart two.".data)) ∧
    (noteOfMatch wPRBody wMatchLabeled ∈ notesOfPR wFinditer wPRBody ∧
      (noteOfMatch wPRBody wMatchLabeled).labels = ["enhancement".data]) :=
  ⟨⟨rfl, by decide, by decide⟩, by
    have h := c3_label_policy wFinditer wPRBody ("Part one.\nPart two.".data)
      wMatchLabeled rfl (by decide) (by decide)
    exact ⟨h.1, h.2.1 ("enhancement".data) rfl (by decide)⟩⟩

theorem c1_empty_label_capture_cex :
    (notesOfPR wFinditerEmptyCapture wPRBody).map ChangeNote.labels = [[[]]] ∧
    wPRBody.labels.map GhLabel.name = ["bug".data] ∧
    ¬ ((notesOfPR wFinditerEmptyCapture wPRBody).map ChangeNote.labels =
        [wPRBody.labels.map GhLabel.name]) := by
  decide

/-- C1 (amended): a match whose label group captured an empty string is
treated as an explicit label, so the note's labels are the single-element
sequence containing the empty string, not the request's own label names. -/
theorem c1_empty_label_capture (f : Str → List ReMatch) (pr : PullRequest) (b : Str)
    (m : ReMatch) (hb : pr.body = some b) (hne : b ≠ []) (hm : m ∈ f b)
    (hl : m.label = some []) :
    noteOfMatch pr m ∈ notesOfPR f pr ∧ (noteOfMatch pr m).labels = [[]] := by
  refine ⟨mem_notesOfPR_of_mem hb hne hm, ?_⟩
  simp [noteOfMatch, hl]

theorem c1_empty_label_capture_witness :
    (wPRBody.body = some ("Part one.\nPart two.".data) ∧
      ("Part one.\nPart two.".data : Str) ≠ [] ∧
      wMatchEmptyCapture ∈ wFinditerEmptyCapture ("Part one.\nPart two.".data) ∧
      wMatchEmptyCapture.label = some []) ∧
    (noteOfMatch wPRBody wMatchEmptyCapture ∈ notesOfPR wFinditerEmptyCapture wPRBody ∧
      (noteOfMatch wPRBody wMatchEmptyCapture).labels = [[]]) :=
  ⟨⟨rfl, by decide, by decide, rfl⟩,
    c1_empty_label_capture wFinditerEmptyCapture wPRBody ("Part one.\nPart two.".data)
      wMatchEmptyCapture rfl (by decide) (by decide) rfl⟩

theorem mem_addNote {l : List ChangeNote} {n x : ChangeNote} :
    x ∈ addNote l n ↔ x ∈ l ∨ x = n := by
  unfold addNote
  split_ifs with h
  · constructor
    · exact Or.inl
    · rintro (hx | hx)
      · exact hx
      · rw [hx]; exact h
  · simp [addNote]

theorem addNote_idem (l : List ChangeNote) (n : ChangeNote) :
    addNote (addNote l n) n = addNote l n := by
  by_cases h : n ∈ l <;> simp [addNote, h]

theorem nodup_addNote {l : List ChangeNote} (h : l.Nodup) (n : ChangeNote) :
    (addNote l n).Nodup := by
  unfold addNote
  split_ifs with h1
  · exact h
  · simp [List.nodup_append, h, h1]

theorem getB_setKey (m : Buckets) (k : Str) (v : List ChangeNote) (k' : Str) :
    getB (setKey m k v) k' = if k = k' then v else getB m k' := by
  induction m with
  | nil => simp [setKey, getB]
  | cons p rest ih =>
    obtain ⟨k0, v0⟩ := p
    simp only [setKey]
    split_ifs with h1 <;> simp only [getB] <;> split_ifs <;> simp_all [getB]

theorem hasK_setKey (m : Buckets) (k : Str) (v : List ChangeNote) (k' : Str) :
    hasK (setKey m k v) k' = (hasK m k' || decide (k = k')) := by
  induction m with
  | nil => simp [setKey, hasK, decide_eq_true_eq, eq_comm]
  | cons p rest ih =>
    obtain ⟨k0, v0⟩ := p
    simp only [setKey]
    split_ifs with h1 <;> simp_all [hasK, List.any_cons]
    cases hd : decide (k = k') <;> cases ht : rest.any fun p => decide (p.1 = k') <;>
      simp_all

theorem keys_setKey (m : Buckets) (k : Str) (v : List ChangeNote) :
    (setKey m k v).map Prod.fst =
      if hasK m k = true then m.map Prod.fst else m.map Prod.fst ++ [k] := by
  induction m with
  | nil => simp [setKey, hasK]
  | cons p rest ih =>
    obtain ⟨k0, v0⟩ := p
    simp only [setKey]
    split_ifs with h1 <;> simp_all [hasK, List.any_cons]

theorem addToBucket_cons_pos (k0 : Str) (v0 : List ChangeNote) (rest : Buckets)
    (k : Str) (n : ChangeNote) (h : k0 = k) :
    addToBucket ((k0, v0) :: rest) k n = (k0, addNote v0 n) :: addToBucket rest k n := by
  simp [addToBucket, h]

theorem addToBucket_cons_neg (k0 : Str) (v0 : List ChangeNote) (rest : Buckets)
    (k : Str) (n : ChangeNote) (h : ¬ k0 = k) :
    addToBucket ((k0, v0) :: rest) k n = (k0, v0) :: addToBucket rest k n := by
  simp [addToBucket, h]

theorem getB_addToBucket (m : Buckets) (k : Str) (n : ChangeNote) (k' : Str) :
    getB (addToBucket m k n) k' =
      if k = k' ∧ hasK m k = true then addNote (getB m k) n else getB m k' := by
  induction m with
  | nil => simp [addToBucket, getB, hasK]
  | cons p rest ih =>
    obtain ⟨k0, v0⟩ := p
    by_cases h1 : k0 = k <;> by_cases h2 : k0 = k'
    · subst h1; subst h2
      rw [addToBucket_cons_pos k0 v0 rest k0 n rfl]
      simp [getB, hasK]
    · subst h1
      rw [addToBucket_cons_pos k0 v0 rest k0 n rfl]
      simp [getB, hasK, h2, ih]
    · subst h2
      have hne : ¬ k = k0 := fun hc => h1 hc.symm
      rw [addToBucket_cons_neg k0 v0 rest k n h1]
      simp [getB, hasK, h1, hne]
    · rw [addToBucket_cons_neg k0 v0 rest k n h1]
      have hd : (decide (k0 = k)) = false := by simp [h1]
      simp only [getB, hasK, h1, h2, ih, List.any_cons, if_neg h2]
      by_cases hX : (rest.any fun p => decide (p.1 = k)) = true
      · simp [hX]
      · rw [Bool.not_eq_true] at hX
        simp [hX]

theorem keys_addToBucket (m : Buckets) (k : Str) (n : ChangeNote) :
    (addToBucket m k n).map Prod.fst = m.map Prod.fst := by
  simp [addToBucket, List.map_map, Function.comp, apply_ite]

theorem hasK_map_fst (m : Buckets) (k' : Str) :
    hasK m k' = (m.map Prod.fst).any (fun s => decide (s = k')) := by
  induction m with
  | nil => rfl
  | cons p rest ih =>
    simp only [hasK, List.any_cons, List.map_cons] at ih ⊢
    rw [ih]

theorem hasK_addToBucket (m : Buckets) (k : Str) (n : ChangeNote) (k' : Str) :
    hasK (addToBucket m k n) k' = hasK m k' := by
  rw [hasK_map_fst, hasK_map_fst, keys_addToBucket]

theorem getB_foldAdd (ms : List Str) (m0 : Buckets) (n : ChangeNote) (k : Str) :
    getB (ms.foldl (fun m s => addToBucket m s n) m0) k =
      if k ∈ ms ∧ hasK m0 k = true then addNote (getB m0 k) n else getB m0 k := by
  induction ms generalizing m0 with
  | nil => simp
  | cons s ss ih =>
    simp only [List.foldl_cons]
    rw [ih (addToBucket m0 s n)]
    rw [hasK_addToBucket, getB_addToBucket]
    by_cases h1 : s = k
    · subst h1
      by_cases h2 : hasK m0 s = true
      · simp [h2, addNote_idem]
      · simp [h2]
    · have hks : ¬ k = s := fun hc => h1 hc.symm
      simp [List.mem_cons, h1, hks]

theorem keys_foldAdd (ms : List Str) (m0 : Buckets) (n : ChangeNote) :
    ((ms.foldl (fun m s => addToBucket m s n) m0)).map Prod.fst = m0.map Prod.fst := by
  induction ms generalizing m0 with
  | nil => rfl
  | cons s ss ih =>
    simp only [List.foldl_cons]
    rw [ih (addToBucket m0 s n), keys_addToBucket]

theorem getB_seedFold (lmap : List (Re × Str)) (m0 : Buckets) (k : Str)
    (h : ∀ k, getB m0 k = []) :
    getB (lmap.foldl (fun m p => setKey m p.2 []) m0) k = [] := by
  induction lmap generalizing m0 with
  | nil => exact h k
  | cons p ps ih =>
    simp only [List.foldl_cons]
    refine ih (setKey m0 p.2 []) (fun k' => ?_)
    rw [getB_setKey]
    split_ifs with h1
    · rfl
    · exact h k'

theorem getB_seed (lmap : List (Re × Str)) (k : Str) :
    getB (seedBuckets lmap) k = [] := by
  unfold seedBuckets
  rw [getB_setKey]
  split_ifs with h1
  · rfl
  · exact getB_seedFold lmap [] k (fun _ => rfl)

theorem hasK_seedFold (lmap : List (Re × Str)) (m0 : Buckets) (k : Str) :
    hasK (lmap.foldl (fun m p => setKey m p.2 []) m0) k =
      (hasK m0 k || lmap.any (fun p => decide (p.2 = k))) := by
  induction lmap generalizing m0 with
  | nil => simp
  | cons p ps ih =>
    simp only [List.foldl_cons, List.any_cons]
    rw [ih (setKey m0 p.2 []), hasK_setKey, Bool.or_assoc]

theorem hasK_seed (lmap : List (Re × Str)) (k : Str) :
    hasK (seedBuckets lmap) k =
      (lmap.any (fun p => decide (p.2 = k)) || decide (otherTitle = k)) := by
  unfold seedBuckets
  rw [hasK_setKey, hasK_seedFold]
  simp [hasK]

theorem keys_seedFold (lmap : List (Re × Str)) (m0 : Buckets)
    (h1 : (lmap.map (fun p => p.2)).Nodup)
    (h2 : ∀ p ∈ lmap, hasK m0 p.2 = false) :
    (lmap.foldl (fun m p => setKey m p.2 []) m0).map Prod.fst =
      m0.map Prod.fst ++ lmap.map (fun p => p.2) := by
  induction lmap generalizing m0 with
  | nil => simp
  | cons p ps ih =>
    simp only [List.foldl_cons, List.map_cons]
    have h1' : (ps.map (fun p => p.2)).Nodup := by
      simp only [List.map_cons, List.nodup_cons] at h1
      exact h1.2
    have hmem : p.2 ∉ ps.map (fun p => p.2) := by
      simp only [List.map_cons, List.nodup_cons] at h1
      exact h1.1
    have h2' : ∀ q ∈ ps, hasK (setKey m0 p.2 []) q.2 = false := by
      intro q hq
      rw [hasK_setKey]
      have hq2 : hasK m0 q.2 = false := h2 q (List.mem_cons_of_mem _ hq)
      have hne : ¬ p.2 = q.2 := by
        intro hc
        exact hmem (hc ▸ List.mem_map_of_mem (fun p => p.2) hq)
      simp [hq2, hne]
    rw [ih (setKey m0 p.2 []) h1' h2', keys_setKey]
    rw [h2 p (List.mem_cons_self p ps)]
    simp

theorem keys_seed (lmap : List (Re × Str))
    (h1 : (lmap.map (fun p => p.2)).Nodup)
    (h2 : otherTitle ∉ lmap.map (fun p => p.2)) :
    (seedBuckets lmap).map Prod.fst = lmap.map (fun p => p.2) ++ [otherTitle] := by
  unfold seedBuckets
  rw [keys_setKey, hasK_seedFold]
  have hany : (lmap.any fun p => decide (p.2 = otherTitle)) = false := by
    rw [List.any_eq_false]
    intro p hp
    simp only [decide_eq_true_eq]
    intro hc
    exact h2 (hc ▸ List.mem_map_of_mem (fun p => p.2) hp)
  rw [hany]
  simp only [hasK, List.any_nil, Bool.or_false, Bool.false_or]
  rw [if_neg (by simp)]
  rw [keys_seedFold lmap [] h1 (fun p hp => rfl)]
  simp

theorem mem_matchingSections {lmap : List (Re × Str)} {note : ChangeNote} {s : Str} :
    s ∈ matchingSections lmap note ↔
      ∃ p ∈ lmap, p.2 = s ∧ ∃ l ∈ note.labels, p.1.matchAtStart l = true := by
  simp only [matchingSections, List.mem_map, List.mem_filter, List.any_eq_true]
  constructor
  · rintro ⟨p, ⟨hp, hl⟩, hs⟩
    exact ⟨p, hp, hs, hl⟩
  · rintro ⟨p, hp, hs, hl⟩
    exact ⟨p, ⟨hp, hl⟩, hs⟩

theorem matchingSections_eq_nil {lmap : List (Re × Str)} {note : ChangeNote} :
    matchingSections lmap note = [] ↔
      ∀ p ∈ lmap, ∀ l ∈ note.labels, p.1.matchAtStart l = false := by
  constructor
  · intro h p hp l hl
    by_contra hc
    have hmem : p.2 ∈ matchingSections lmap note := by
      rw [mem_matchingSections]
      exact ⟨p, hp, rfl, l, hl, by
        cases hm : (p.1.matchAtStart l) with
        | false => exact absurd hm hc
        | true => rfl⟩
    rw [h] at hmem
    exact List.not_mem_nil _ hmem
  · intro h
    by_contra hc
    obtain ⟨s, hs⟩ := List.exists_mem_of_ne_nil _ hc
    rw [mem_matchingSections] at hs
    obtain ⟨p, hp, _, l, hl, hm⟩ := hs
    rw [h p hp l hl] at hm
    exact Bool.false_ne_true hm

theorem mem_getB_classifyStep (lmap : List (Re × Str)) (st : Buckets × List Str)
    (note : ChangeNote) (n : ChangeNote) (k : Str) :
    n ∈ getB (classifyStep lmap st note).1 k ↔
      n ∈ getB st.1 k ∨
        (n = note ∧ hasK st.1 k = true ∧
          (k ∈ matchingSections lmap note ∨
            (matchingSections lmap note = [] ∧ k = otherTitle))) := by
  simp only [classifyStep]
  by_cases hms : matchingSections lmap note = []
  · rw [if_pos hms]
    simp only [hms, List.foldl_nil]
    rw [getB_addToBucket]
    by_cases h1 : otherTitle = k ∧ hasK st.1 otherTitle = true
    · rw [if_pos h1]
      rw [mem_addNote]
      obtain ⟨hk, hh⟩ := h1
      subst hk
      simp [hh]
    · rw [if_neg h1]
      constructor
      · intro hmem
        exact Or.inl hmem
      · rintro (hmem | ⟨hn, hh, hor⟩)
        · exact hmem
        · rcases hor with hor | ⟨_, hk⟩
          · exact absurd hor (List.not_mem_nil k)
          · subst hk
            exact absurd ⟨rfl, hh⟩ h1
  · rw [if_neg hms]
    simp only []
    rw [getB_foldAdd]
    by_cases h1 : k ∈ matchingSections lmap note ∧ hasK st.1 k = true
    · rw [if_pos h1]
      rw [mem_addNote]
      constructor
      · rintro (hmem | hn)
        · exact Or.inl hmem
        · exact Or.inr ⟨hn, h1.2, Or.inl h1.1⟩
      · rintro (hmem | ⟨hn, _, _⟩)
        · exact Or.inl hmem
        · exact Or.inr hn
    · rw [if_neg h1]
      constructor
      · intro hmem
        exact Or.inl hmem
      · rintro (hmem | ⟨hn, hh, hor⟩)
        · exact hmem
        · rcases hor with hor | ⟨hnil, _⟩
          · exact absurd ⟨hor, hh⟩ h1
          · exact absurd hnil hms

theorem hasK_classifyStep (lmap : List (Re × Str)) (st : Buckets × List Str)
    (note : ChangeNote) (k : Str) :
    hasK (classifyStep lmap st note).1 k = hasK st.1 k := by
  simp only [classifyStep]
  split_ifs with hms
  · simp only []
    rw [hasK_addToBucket]
    have : ∀ ms : List Str, ∀ m0 : Buckets,
        hasK (ms.foldl (fun m s => addToBucket m s note) m0) k = hasK m0 k := by
      intro ms
      induction ms with
      | nil => intro m0; rfl
      | cons s ss ih =>
        intro m0
        simp only [List.foldl_cons]
        rw [ih (addToBucket m0 s note), hasK_addToBucket]
    exact this _ _
  · simp only []
    have : ∀ ms : List Str, ∀ m0 : Buckets,
        hasK (ms.foldl (fun m s => addToBucket m s note) m0) k = hasK m0 k := by
      intro ms
      induction ms with
      | nil => intro m0; rfl
      | cons s ss ih =>
        intro m0
        simp only [List.foldl_cons]
        rw [ih (addToBucket m0 s note), hasK_addToBucket]
    exact this _ _

theorem hasK_classifyFold (lmap : List (Re × Str)) (notes : List ChangeNote)
    (st : Buckets × List Str) (k : Str) :
    hasK ((notes.foldl (classifyStep lmap) st).1) k = hasK st.1 k := by
  induction notes generalizing st with
  | nil => rfl
  | cons note rest ih =>
    simp only [List.foldl_cons]
    rw [ih (classifyStep lmap st note), hasK_classifyStep]

theorem mem_getB_classifyFold (lmap : List (Re × Str)) (notes : List ChangeNote)
    (st : Buckets × List Str) (n : ChangeNote) (k : Str) :
    n ∈ getB ((notes.foldl (classifyStep lmap) st).1) k ↔
      n ∈ getB st.1 k ∨
        (n ∈ notes ∧ hasK st.1 k = true ∧
          (k ∈ matchingSections lmap n ∨
            (matchingSections lmap n = [] ∧ k = otherTitle))) := by
  induction notes generalizing st with
  | nil => simp
  | cons note rest ih =>
    simp only [List.foldl_cons]
    rw [ih (classifyStep lmap st note)]
    rw [mem_getB_classifyStep, hasK_classifyStep]
    simp only [List.mem_cons]
    constructor
    · rintro ((hmem | ⟨hn, hh, hc⟩) | ⟨hmem, hh, hc⟩)
      · exact Or.inl hmem
      · exact Or.inr ⟨Or.inl hn, hh, hn ▸ hc⟩
      · exact Or.inr ⟨Or.inr hmem, hh, hc⟩
    · rintro (hmem | ⟨hn | hmem, hh, hc⟩)
      · exact Or.inl (Or.inl hmem)
      · exact Or.inl (Or.inr ⟨hn, hh, hn ▸ hc⟩)
      · exact Or.inr ⟨hmem, hh, hc⟩

theorem diags_mono (lmap : List (Re × Str)) (notes : List ChangeNote)
    (st : Buckets × List Str) (x : Str) (h : x ∈ st.2) :
    x ∈ (notes.foldl (classifyStep lmap) st).2 := by
  induction notes generalizing st with
  | nil => exact h
  | cons note rest ih =>
    simp only [List.foldl_cons]
    refine ih (classifyStep lmap st note) ?_
    simp only [classifyStep]
    split_ifs with hms
    · simp only [List.mem_append]
      exact Or.inl h
    · exact h

theorem mem_diags_classifyFold (lmap : List (Re × Str)) (notes : List ChangeNote)
    (st : Buckets × List Str) (n : ChangeNote) (h1 : n ∈ notes)
    (h2 : matchingSections lmap n = []) :
    n.reference_url ∈ (notes.foldl (classifyStep lmap) st).2 := by
  induction notes generalizing st with
  | nil => exact absurd h1 (List.not_mem_nil n)
  | cons note rest ih =>
    simp only [List.foldl_cons]
    rcases List.mem_cons.mp h1 with hn | hn
    · subst hn
      refine diags_mono lmap rest (classifyStep lmap st n) _ ?_
      simp only [classifyStep, if_pos h2]
      simp only [h2, List.foldl_nil, List.mem_append, List.mem_singleton]
      exact Or.inr trivial
    · exact ih (classifyStep lmap st note) hn

theorem nodup_getB_classifyStep (lmap : List (Re × Str)) (st : Buckets × List Str)
    (note : ChangeNote) (k : Str) (h : ∀ k, (getB st.1 k).Nodup) :
    (getB (classifyStep lmap st note).1 k).Nodup := by
  simp only [classifyStep]
  split_ifs with hms
  · simp only [hms, List.foldl_nil]
    rw [getB_addToBucket]
    split_ifs with h1
    · exact nodup_addNote (h otherTitle) note
    · exact h k
  · simp only []
    rw [getB_foldAdd]
    split_ifs with h1
    · exact nodup_addNote (h k) note
    · exact h k

theorem nodup_getB_classifyFold (lmap : List (Re × Str)) (notes : List ChangeNote)
    (st : Buckets × List Str) (h : ∀ k, (getB st.1 k).Nodup) (k : Str) :
    (getB ((notes.foldl (classifyStep lmap) st).1) k).Nodup := by
  induction notes generalizing st with
  | nil => exact h k
  | cons note rest ih =>
    simp only [List.foldl_cons]
    exact ih (classifyStep lmap st note)
      (fun k' => nodup_getB_classifyStep lmap st note k' h)

theorem hasK_iff_mem_keys {m : Buckets} {k : Str} :
    hasK m k = true ↔ k ∈ m.map Prod.fst := by
  rw [hasK_map_fst, List.any_eq_true]
  constructor
  · rintro ⟨s, hs, hdec⟩
    rw [decide_eq_true_eq] at hdec
    exact hdec ▸ hs
  · intro hk
    exact ⟨k, hk, by simp⟩

theorem hasK_seed_of_section {lmap : List (Re × Str)} {p : Re × Str} (hp : p ∈ lmap) :
    hasK (seedBuckets lmap) p.2 = true := by
  rw [hasK_seed]
  have : (lmap.any fun q => decide (q.2 = p.2)) = true := by
    rw [List.any_eq_true]
    exact ⟨p, hp, by simp⟩
  rw [this]
  rfl

theorem hasK_seed_other (lmap : List (Re × Str)) :
    hasK (seedBuckets lmap) otherTitle = true := by
  rw [hasK_seed]
  simp

/-- C5: a note lands in a section's bucket exactly when some configured
pattern for that section matches (anchored at the start, case-insensitively)
one of its labels, or the bucket is `"Other"` and nothing matches; buckets
are duplicate-free; the match relation is a prefix match, invariant under
case changes of the label. -/
theorem c5_section_matching (f : MdFormatter) (s : Str) (note : ChangeNote) :
    (note ∈ getB f.notesBySection s ↔
      note ∈ f.change_notes ∧
        ((∃ p ∈ f.label_section_map, p.2 = s ∧
            ∃ l ∈ note.labels, p.1.matchAtStart l = true) ∨
          (s = otherTitle ∧
            ∀ p ∈ f.label_section_map, ∀ l ∈ note.labels,
              p.1.matchAtStart l = false)))
    ∧ (getB f.notesBySection s).Nodup
    ∧ (∀ r : Re, ∀ t : Str, r.matchAtStart t = true ↔
        ∃ n, n ≤ t.length ∧ r.acceptsCI (t.take n) = true)
    ∧ (∀ r : Re, ∀ t u : Str, t.map Char.toLower = u.map Char.toLower →
        r.matchAtStart t = r.matchAtStart u) := by
  refine ⟨?_, ?_, matchAtStart_iff, fun r t u h => matchAtStart_congr r h⟩
  · show note ∈ getB (classifyAll f.label_section_map f.change_notes).1 s ↔ _
    unfold classifyAll
    rw [mem_getB_classifyFold]
    have hseed : getB (seedBuckets f.label_section_map, ([] : List Str)).1 s = [] :=
      getB_seed f.label_section_map s
    rw [hseed]
    simp only [List.not_mem_nil, false_or]
    constructor
    · rintro ⟨hmem, hh, hc⟩
      refine ⟨hmem, ?_⟩
      rcases hc with hc | ⟨hnil, hk⟩
      · exact Or.inl (mem_matchingSections.mp hc)
      · exact Or.inr ⟨hk, matchingSections_eq_nil.mp hnil⟩
    · rintro ⟨hmem, hc⟩
      refine ⟨hmem, ?_, ?_⟩
      · show hasK (seedBuckets f.label_section_map) s = true
        rcases hc with ⟨p, hp, hps, _⟩ | ⟨hs, _⟩
        · exact hps ▸ hasK_seed_of_section hp
        · exact hs ▸ hasK_seed_other f.label_section_map
      · rcases hc with ⟨p, hp, hps, l, hl, hm⟩ | ⟨hs, hall⟩
        · exact Or.inl (mem_matchingSections.mpr ⟨p, hp, hps, l, hl, hm⟩)
        · exact Or.inr ⟨matchingSections_eq_nil.mpr hall, hs⟩
  · show (getB (classifyAll f.label_section_map f.change_notes).1 s).Nodup
    unfold classifyAll
    refine nodup_getB_classifyFold _ _ _ (fun k => ?_) s
    show (getB (seedBuckets f.label_section_map) k).Nodup
    rw [getB_seed]
    exact List.nodup_nil

theorem c5_section_matching_witness :
    (wNoteBug ∈ getB wFmt.notesBySection ("Bug Fixes".data) ↔
      wNoteBug ∈ wFmt.change_notes ∧
        ((∃ p ∈ wFmt.label_section_map, p.2 = "Bug Fixes".data ∧
            ∃ l ∈ wNoteBug.labels, p.1.matchAtStart l = true) ∨
          ("Bug Fixes".data = otherTitle ∧
            ∀ p ∈ wFmt.label_section_map, ∀ l ∈ wNoteBug.labels,
              p.1.matchAtStart l = false)))
    ∧ (getB wFmt.notesBySection ("Bug Fixes".data)).Nodup
    ∧ (∀ r : Re, ∀ t : Str, r.matchAtStart t = true ↔
        ∃ n, n ≤ t.length ∧ r.acceptsCI (t.take n) = true)
    ∧ (∀ r : Re, ∀ t u : Str, t.map Char.toLower = u.map Char.toLower →
        r.matchAtStart t = r.matchAtStart u) :=
  c5_section_matching wFmt ("Bug Fixes".data) wNoteBug

/-- C2: every change note is classified into at least one section bucket; a
note matching no configured pattern goes to `"Other"` and its reference URL
is emitted as a diagnostic. -/
theorem c2_total_coverage (f : MdFormatter) (note : ChangeNote)
    (h : note ∈ f.change_notes) :
    (∃ s, s ∈ (f.notesBySection).map Prod.fst ∧ note ∈ getB f.notesBySection s)
    ∧ (matchingSections f.label_section_map note = [] →
        note ∈ getB f.notesBySection otherTitle ∧
          note.reference_url ∈ f.classifierDiags) := by
  have hmem : ∀ s : Str, hasK (seedBuckets f.label_section_map) s = true →
      (s ∈ matchingSections f.label_section_map note ∨
        (matchingSections f.label_section_map note = [] ∧ s = otherTitle)) →
      note ∈ getB f.notesBySection s := by
    intro s hh hc
    show note ∈ getB (classifyAll f.label_section_map f.change_notes).1 s
    unfold classifyAll
    rw [mem_getB_classifyFold]
    exact Or.inr ⟨h, hh, hc⟩
  have hkeys : ∀ s : Str, hasK (seedBuckets f.label_section_map) s = true →
      s ∈ (f.notesBySection).map Prod.fst := by
    intro s hh
    rw [← hasK_iff_mem_keys]
    show hasK (classifyAll f.label_section_map f.change_notes).1 s = true
    unfold classifyAll
    rw [hasK_classifyFold]
    exact hh
  constructor
  · by_cases hms : matchingSections f.label_section_map note = []
    · exact ⟨otherTitle, hkeys otherTitle (hasK_seed_other _),
        hmem otherTitle (hasK_seed_other _) (Or.inr ⟨hms, rfl⟩)⟩
    · obtain ⟨s, hs⟩ := List.exists_mem_of_ne_nil _ hms
      obtain ⟨p, hp, hps, _⟩ := mem_matchingSections.mp hs
      have hh : hasK (seedBuckets f.label_section_map) s = true :=
        hps ▸ hasK_seed_of_section hp
      exact ⟨s, hkeys s hh, hmem s hh (Or.inl hs)⟩
  · intro hms
    refine ⟨hmem otherTitle (hasK_seed_other _) (Or.inr ⟨hms, rfl⟩), ?_⟩
    show note.reference_url ∈ (classifyAll f.label_section_map f.change_notes).2
    unfold classifyAll
    exact mem_diags_classifyFold _ _ _ note h hms

theorem c2_total_coverage_witness :
    (wNoteMisc ∈ wFmt.change_notes) ∧
    ((∃ s, s ∈ (wFmt.notesBySection).map Prod.fst ∧
        s = otherTitle ∧ wNoteMisc ∈ getB wFmt.notesBySection s)
      ∧ wNoteMisc ∈ getB wFmt.notesBySection otherTitle
      ∧ wNoteMisc.reference_url ∈ wFmt.classifierDiags) := by
  have h := c2_total_coverage wFmt wNoteMisc (by decide)
  have hms : matchingSections wFmt.label_section_map wNoteMisc = [] := by decide
  have h2 := h.2 hms
  exact ⟨by decide, ⟨otherTitle, by decide, rfl, h2.1⟩, h2.1, h2.2⟩

theorem keys_classifyStep (lmap : List (Re × Str)) (st : Buckets × List Str)
    (note : ChangeNote) :
    (classifyStep lmap st note).1.map Prod.fst = st.1.map Prod.fst := by
  simp only [classifyStep]
  split_ifs with hms
  · simp only []
    rw [keys_addToBucket, keys_foldAdd]
  · simp only []
    rw [keys_foldAdd]

theorem keys_classifyFold (lmap : List (Re × Str)) (notes : List ChangeNote)
    (st : Buckets × List Str) :
    ((notes.foldl (classifyStep lmap) st).1).map Prod.fst = st.1.map Prod.fst := by
  induction notes generalizing st with
  | nil => rfl
  | cons note rest ih =>
    simp only [List.foldl_cons]
    rw [ih (classifyStep lmap st note), keys_classifyStep]

theorem noteTsLe_total : ∀ a b : ChangeNote, noteTsLe a b ∨ noteTsLe b a :=
  fun a b => Int.le_total a.timestamp b.timestamp

theorem noteTsLe_trans : ∀ a b c : ChangeNote, noteTsLe a b → noteTsLe b c → noteTsLe a c :=
  fun _ _ _ h1 h2 => le_trans h1 h2

theorem dedupFirst_concat (l : List Str) (x : Str) :
    dedupFirst (l ++ [x]) =
      if x ∈ dedupFirst l then dedupFirst l else dedupFirst l ++ [x] := by
  unfold dedupFirst
  rw [List.foldl_append]
  rfl

theorem keys_setKeyFoldGen (lmap : List (Re × Str)) :
    ∀ m : Buckets,
      ((lmap.foldl (fun m p => setKey m p.2 []) m).map Prod.fst) =
        (lmap.map (fun p => p.2)).foldl
          (fun acc s => if s ∈ acc then acc else acc ++ [s]) (m.map Prod.fst) := by
  induction lmap with
  | nil => intro m; rfl
  | cons p ps ih =>
    intro m
    simp only [List.foldl_cons, List.map_cons]
    rw [ih (setKey m p.2 [])]
    congr 1
    rw [keys_setKey]
    by_cases hk : hasK m p.2 = true
    · rw [if_pos hk, if_pos (hasK_iff_mem_keys.mp hk)]
    · rw [if_neg hk, if_neg (fun hc => hk (hasK_iff_mem_keys.mpr hc))]

theorem keys_seedBuckets (lmap : List (Re × Str)) :
    (seedBuckets lmap).map Prod.fst =
      dedupFirst (lmap.map (fun p => p.2) ++ [otherTitle]) := by
  unfold seedBuckets
  have hkeys : ((lmap.foldl (fun m p => setKey m p.2 []) []).map Prod.fst) =
      dedupFirst (lmap.map (fun p => p.2)) := by
    rw [keys_setKeyFoldGen lmap []]
    rfl
  rw [keys_setKey, hkeys, dedupFirst_concat]
  by_cases hk : hasK (lmap.foldl (fun m p => setKey m p.2 []) []) otherTitle = true
  · rw [if_pos hk, if_pos (hkeys ▸ hasK_iff_mem_keys.mp hk)]
  · rw [if_neg hk, if_neg (fun hc => hk (hasK_iff_mem_keys.mpr (hkeys ▸ hc)))]

theorem c6_section_layout_cex :
    formatChangeSection ['T']
        [{ content := "Fix".data, reference_name := "#1".data,
           reference_url := "u".data, labels := [], timestamp := 0 }] =
      ["## T\n".data, "\n".data, "- Fix ([#1](u)).\n".data, "\n".data]
    ∧ formatChangeSection ['T']
        [{ content := "Fix".data, reference_name := "#1".data,
           reference_url := "u".data, labels := [], timestamp := 0 }] ≠
      ["## T\n".data, "- Fix ([#1](u)).\n".data, "\n".data]
    ∧ (wFmtOther.notesBySection).map Prod.fst = ["Other".data, "Bugs".data]
    ∧ (wFmtOther.notesBySection).map Prod.fst ≠
        wFmtOther.label_section_map.map (fun p => p.2) ++ [otherTitle] := by
  decide

/-- C6 (amended): section buckets iterate in first-occurrence order of the
configured titles, with `"Other"` appended last unless it is itself a
configured title (then its single bucket keeps its configured position); an
empty section renders nothing; a non-empty section renders a level-2 heading,
a blank line, one line per note in non-decreasing timestamp order, and a
trailing blank line. -/
theorem c6_section_layout (f : MdFormatter) :
    (f.notesBySection).map Prod.fst =
      dedupFirst (f.label_section_map.map (fun p => p.2) ++ [otherTitle])
    ∧ f.iterLines =
        formatSectionTitle (pyFormat f.title_template f.repo_name f.version) 1 ++
          ["\n".data] ++ formatIntro f ++
          ((f.notesBySection).map (fun p => formatChangeSection p.1 p.2)).flatten ++
          formatContributorSection f f.authors f.reviewers ++ formatOutro f
    ∧ (∀ t : Str, formatChangeSection t [] = [])
    ∧ (∀ t : Str, ∀ notes : List ChangeNote, notes ≠ [] →
        formatChangeSection t notes =
          formatSectionTitle t 2 ++ ["\n".data] ++
            ((sortNotes notes).map formatChangeNote).flatten ++ ["\n".data]
        ∧ List.Sorted noteTsLe (sortNotes notes)
        ∧ (sortNotes notes).Perm notes
        ∧ ∀ n : ChangeNote, (formatChangeNote n).length = 1) := by
  refine ⟨?_, rfl, fun t => by simp [formatChangeSection], ?_⟩
  · show (classifyAll f.label_section_map f.change_notes).1.map Prod.fst = _
    unfold classifyAll
    rw [keys_classifyFold]
    exact keys_seedBuckets f.label_section_map
  · intro t notes hne
    haveI : IsTotal ChangeNote noteTsLe := ⟨noteTsLe_total⟩
    haveI : IsTrans ChangeNote noteTsLe := ⟨noteTsLe_trans⟩
    refine ⟨by simp [formatChangeSection, hne], ?_, ?_, fun n => rfl⟩
    · exact List.sorted_insertionSort noteTsLe notes
    · exact List.perm_insertionSort noteTsLe notes

theorem c6_section_layout_witness :
    (wFmtOther.notesBySection).map Prod.fst =
        dedupFirst (wFmtOther.label_section_map.map (fun p => p.2) ++ [otherTitle])
      ∧ wFmtOther.iterLines =
          formatSectionTitle
              (pyFormat wFmtOther.title_template wFmtOther.repo_name wFmtOther.version) 1 ++
            ["\n".data] ++ formatIntro wFmtOther ++
            ((wFmtOther.notesBySection).map (fun p => formatChangeSection p.1 p.2)).flatten ++
            formatContributorSection wFmtOther wFmtOther.authors wFmtOther.reviewers ++
            formatOutro wFmtOther
      ∧ (∀ t : Str, formatChangeSection t [] = [])
      ∧ (∀ t : Str, ∀ notes : List ChangeNote, notes ≠ [] →
          formatChangeSection t notes =
            formatSectionTitle t 2 ++ ["\n".data] ++
              ((sortNotes notes).map formatChangeNote).flatten ++ ["\n".data]
          ∧ List.Sorted noteTsLe (sortNotes notes)
          ∧ (sortNotes notes).Perm notes
          ∧ ∀ n : ChangeNote, (formatChangeNote n).length = 1) :=
  c6_section_layout wFmtOther

theorem mem_pyRStripDot_sub {x : Char} {s : Str} (h : x ∈ pyRStripDot s) : x ∈ s := by
  unfold pyRStripDot at h
  rw [List.mem_reverse] at h
  have hx : x ∈ s.reverse := (List.dropWhile_sublist _).subset h
  exact List.mem_reverse.mp hx

theorem nl_not_mem_sanitizeText (s : Str) : '\n' ∉ sanitizeText s := by
  unfold sanitizeText
  exact not_mem_replaceSub_single (by decide) _

theorem nl_not_mem_summary (s : Str) : '\n' ∉ pyRStripDot (sanitizeText s) :=
  fun h => nl_not_mem_sanitizeText s (mem_pyRStripDot_sub h)

theorem dropWhile_head_false {p : Char → Bool} :
    ∀ {l : List Char} {a : Char} {l' : List Char},
      List.dropWhile p l = a :: l' → p a = false := by
  intro l
  induction l with
  | nil =>
    intro a l' h
    simp at h
  | cons c cs ih =>
    intro a l' h
    rw [List.dropWhile_cons] at h
    split_ifs at h with hp
    · exact ih h
    · injection h with h1 h2
      rw [← h1]
      cases hpc : p c with
      | false => rfl
      | true => exact absurd hpc hp

theorem pyRStripDot_no_trailing (s : Str) : ∀ t : Str, pyRStripDot s ≠ t ++ ['.'] := by
  intro t ht
  unfold pyRStripDot at ht
  have hrev := congrArg List.reverse ht
  rw [List.reverse_reverse, List.reverse_append] at hrev
  simp only [List.reverse_cons, List.reverse_nil, List.nil_append,
    List.singleton_append] at hrev
  have hfalse := dropWhile_head_false hrev
  simp at hfalse

theorem c7_change_note_line_cex :
    formatChangeNote { content := "a\rb".data, reference_name := "#1".data,
                       reference_url := "u".data, labels := [], timestamp := 0 } =
      ["- a\rb ([#1](u)).\n".data]
    ∧ '\r' ∈ ("- a\rb ([#1](u)).\n".data : Str)
    ∧ ("- a\rb ([#1](u)).\n".data : Str) ≠ "- a b ([#1](u)).\n".data := by
  decide

/-- C7 (amended): a note line strips surrounding whitespace and collapses
CRLF and LF line breaks in the content to single spaces (a lone CR is left in
place), strips trailing periods, and wraps the summary as a dash item whose
link is the Markdown `[name](url)` form, ending in a period and exactly one
newline. -/
theorem c7_change_note_line (note : ChangeNote)
    (hn : '\n' ∉ note.reference_name) (hu : '\n' ∉ note.reference_url) :
    formatChangeNote note =
      ["- ".data ++ pyRStripDot (sanitizeText note.content) ++ " (".data ++
        formatLink note.reference_name note.reference_url ++ ").\n".data]
    ∧ sanitizeText note.content =
        replaceSub ['\n'] [' '] (replaceSub ['\r', '\n'] [' '] (pyStrip note.content))
    ∧ '\n' ∉ pyRStripDot (sanitizeText note.content)
    ∧ (∀ t : Str, pyRStripDot (sanitizeText note.content) ≠ t ++ ['.'])
    ∧ (∀ l ∈ formatChangeNote note, l.count '\n' = 1 ∧ l.getLast? = some '\n') := by
  refine ⟨rfl, rfl, nl_not_mem_summary note.content,
    pyRStripDot_no_trailing (sanitizeText note.content), ?_⟩
  intro l hl
  rw [formatChangeNote, List.mem_singleton] at hl
  subst hl
  have hA : (pyRStripDot (sanitizeText note.content)).count '\n' = 0 :=
    List.count_eq_zero.mpr (nl_not_mem_summary note.content)
  have hnc : note.reference_name.count '\n' = 0 := List.count_eq_zero.mpr hn
  have huc : note.reference_url.count '\n' = 0 := List.count_eq_zero.mpr hu
  have hlink : (formatLink note.reference_name note.reference_url).count '\n' = 0 := by
    unfold formatLink
    simp only [List.count_cons, List.count_append, hnc, huc]
    decide
  constructor
  · simp only [List.count_append, hA, hlink]
    decide
  · rw [List.getLast?_append]
    have h1 : (").\n".data : Str).getLast? = some '\n' := by decide
    rw [h1]
    rfl

theorem c7_change_note_line_witness :
    ('\n' ∉ wNoteBug.reference_name ∧ '\n' ∉ wNoteBug.reference_url) ∧
    (formatChangeNote wNoteBug =
      ["- ".data ++ pyRStripDot (sanitizeText wNoteBug.content) ++ " (".data ++
        formatLink wNoteBug.reference_name wNoteBug.reference_url ++ ").\n".data]
    ∧ sanitizeText wNoteBug.content =
        replaceSub ['\n'] [' '] (replaceSub ['\r', '\n'] [' '] (pyStrip wNoteBug.content))
    ∧ '\n' ∉ pyRStripDot (sanitizeText wNoteBug.content)
    ∧ (∀ t : Str, pyRStripDot (sanitizeText wNoteBug.content) ≠ t ++ ['.'])
    ∧ (∀ l ∈ formatChangeNote wNoteBug, l.count '\n' = 1 ∧ l.getLast? = some '\n')) :=
  ⟨⟨by decide, by decide⟩, c7_change_note_line wNoteBug (by decide) (by decide)⟩

theorem mem_dedupUsers_fold {x : NamedUser} :
    ∀ (l acc : List NamedUser),
      (x ∈ l.foldl (fun acc u => if u ∈ acc then acc else acc ++ [u]) acc ↔
        x ∈ acc ∨ x ∈ l) := by
  intro l
  induction l with
  | nil => intro acc; simp
  | cons u us ih =>
    intro acc
    simp only [List.foldl_cons]
    rw [ih]
    by_cases hu : u ∈ acc
    · rw [if_pos hu]
      simp only [List.mem_cons]
      constructor
      · rintro (hm | hm)
        · exact Or.inl hm
        · exact Or.inr (Or.inr hm)
      · rintro (hm | hm | hm)
        · exact Or.inl hm
        · exact Or.inl (hm ▸ hu)
        · exact Or.inr hm
    · rw [if_neg hu]
      simp only [List.mem_append, List.mem_singleton, List.mem_cons]
      tauto

theorem mem_dedupUsers {x : NamedUser} {l : List NamedUser} :
    x ∈ dedupUsers l ↔ x ∈ l := by
  unfold dedupUsers
  rw [mem_dedupUsers_fold]
  simp

theorem mem_filteredUsers {x : NamedUser} {ig : List Str} {l : List NamedUser} :
    x ∈ filteredUsers ig l ↔ x ∈ l ∧ x.login ∉ ig := by
  unfold filteredUsers
  rw [mem_dedupUsers, List.mem_filter]
  simp

theorem lineLe_total : ∀ a b : Str, lineLe a b ∨ lineLe b a :=
  fun a b => strLe_total (strLower a) (strLower b)

theorem lineLe_trans : ∀ a b c : Str, lineLe a b → lineLe b c → lineLe a c :=
  fun _ _ _ h1 h2 => strLe_trans h1 h2

/-- C8: the contributor section filters ignored logins out of both sets
before computing the count lines, and sorts the remaining rendered user lines
by their lower-cased full text. -/
theorem c8_contributor_sorting (f : MdFormatter) (authors reviewers : List NamedUser) :
    formatContributorSection f authors reviewers =
      formatSectionTitle ("Contributors".data) 2 ++ ["\n".data] ++
        [natStr (filteredUsers f.ignored_user_logins authors).length ++
          " authors added to this release (alphabetically):\n".data, "\n".data] ++
        sortLines ((filteredUsers f.ignored_user_logins authors).map formatUserLine) ++
        ["\n".data] ++
        [natStr (filteredUsers f.ignored_user_logins reviewers).length ++
          " reviewers added to this release (alphabetically):\n".data, "\n".data] ++
        sortLines ((filteredUsers f.ignored_user_logins reviewers).map formatUserLine) ++
        ["\n".data]
    ∧ (∀ u ∈ filteredUsers f.ignored_user_logins authors,
        u.login ∉ f.ignored_user_logins)
    ∧ (∀ u ∈ filteredUsers f.ignored_user_logins reviewers,
        u.login ∉ f.ignored_user_logins)
    ∧ (∀ u : NamedUser, u.login ∈ f.ignored_user_logins →
        u ∉ filteredUsers f.ignored_user_logins authors ∧
        u ∉ filteredUsers f.ignored_user_logins reviewers)
    ∧ List.Sorted lineLe
        (sortLines ((filteredUsers f.ignored_user_logins authors).map formatUserLine))
    ∧ List.Sorted lineLe
        (sortLines ((filteredUsers f.ignored_user_logins reviewers).map formatUserLine))
    ∧ (sortLines ((filteredUsers f.ignored_user_logins authors).map formatUserLine)).Perm
        ((filteredUsers f.ignored_user_logins authors).map formatUserLine)
    ∧ (sortLines ((filteredUsers f.ignored_user_logins reviewers).map formatUserLine)).Perm
        ((filteredUsers f.ignored_user_logins reviewers).map formatUserLine) := by
  haveI : IsTotal Str lineLe := ⟨lineLe_total⟩
  haveI : IsTrans Str lineLe := ⟨lineLe_trans⟩
  refine ⟨rfl, ?_, ?_, ?_, List.sorted_insertionSort lineLe _,
    List.sorted_insertionSort lineLe _, List.perm_insertionSort lineLe _,
    List.perm_insertionSort lineLe _⟩
  · intro u hu
    exact (mem_filteredUsers.mp hu).2
  · intro u hu
    exact (mem_filteredUsers.mp hu).2
  · intro u hu
    constructor
    · intro hc
      exact (mem_filteredUsers.mp hc).2 hu
    · intro hc
      exact (mem_filteredUsers.mp hc).2 hu

theorem c8_contributor_sorting_witness :
    formatContributorSection wFmt wFmt.authors wFmt.reviewers =
      ["## Contributors\n".data, "\n".data,
        "2 authors added to this release (alphabetically):\n".data, "\n".data,
        "- [@Alice](ua)\n".data, "- [@bob](ub)\n".data, "\n".data,
        "0 reviewers added to this release (alphabetically):\n".data, "\n".data,
        "\n".data]
    ∧ (∀ u ∈ filteredUsers wFmt.ignored_user_logins wFmt.authors,
        u.login ∉ wFmt.ignored_user_logins)
    ∧ List.Sorted lineLe
        (sortLines ((filteredUsers wFmt.ignored_user_logins wFmt.authors).map
          formatUserLine)) := by
  have h := c8_contributor_sorting wFmt wFmt.authors wFmt.reviewers
  refine ⟨?_, h.2.1, h.2.2.2.2.1⟩
  rw [h.1]
  decide

/-- C9: rendering is a pure function of the formatter value: equal inputs
give byte-identical documents and identical line sequences, and the document
string is exactly the concatenation of one line-wise traversal. -/
theorem c9_deterministic (f g : MdFormatter) (h : f = g) :
    f.document = g.document ∧ f.iterLines = g.iterLines ∧
      f.document = (f.iterLines).flatten := by
  subst h
  exact ⟨rfl, rfl, rfl⟩

theorem c9_deterministic_witness :
    wFmt = wFmt ∧
    (wFmt.document = wFmt.document ∧ wFmt.iterLines = wFmt.iterLines ∧
      wFmt.document = (wFmt.iterLines).flatten) :=
  ⟨rfl, c9_deterministic wFmt wFmt rfl⟩

/-- C10: the Contributors section is emitted unconditionally: its heading is
always the first line of the section, and when every author and reviewer is
ignored (or absent) the heading and the two zero-count lines still appear,
unlike change sections, which render nothing when empty. -/
theorem c10_contributors_unconditional (f : MdFormatter)
    (authors reviewers : List NamedUser)
    (ha : ∀ u ∈ authors, u.login ∈ f.ignored_user_logins)
    (hr : ∀ u ∈ reviewers, u.login ∈ f.ignored_user_logins) :
    formatContributorSection f authors reviewers =
      ["## Contributors\n".data, "\n".data,
        "0 authors added to this release (alphabetically):\n".data, "\n".data,
        "\n".data,
        "0 reviewers added to this release (alphabetically):\n".data, "\n".data,
        "\n".data]
    ∧ (∀ a r : List NamedUser,
        (formatContributorSection f a r).take 2 =
          ["## Contributors\n".data, "\n".data])
    ∧ (∀ t : Str, formatChangeSection t ([] : List ChangeNote) = []) := by
  have hfa : filteredUsers f.ignored_user_logins authors = [] := by
    unfold filteredUsers
    have : authors.filter (fun u => decide (u.login ∉ f.ignored_user_logins)) = [] := by
      rw [List.filter_eq_nil_iff]
      intro u hu
      simp only [decide_eq_true_eq]
      intro hc
      exact hc (ha u hu)
    rw [this]
    rfl
  have hfr : filteredUsers f.ignored_user_logins reviewers = [] := by
    unfold filteredUsers
    have : reviewers.filter (fun u => decide (u.login ∉ f.ignored_user_logins)) = [] := by
      rw [List.filter_eq_nil_iff]
      intro u hu
      simp only [decide_eq_true_eq]
      intro hc
      exact hc (hr u hu)
    rw [this]
    rfl
  refine ⟨?_, ?_, fun t => by simp [formatChangeSection]⟩
  · show formatSectionTitle ("Contributors".data) 2 ++ ["\n".data] ++
        [natStr (filteredUsers f.ignored_user_logins authors).length ++
          " authors added to this release (alphabetically):\n".data, "\n".data] ++
        sortLines ((filteredUsers f.ignored_user_logins authors).map formatUserLine) ++
        ["\n".data] ++
        [natStr (filteredUsers f.ignored_user_logins reviewers).length ++
          " reviewers added to this release (alphabetically):\n".data, "\n".data] ++
        sortLines ((filteredUsers f.ignored_user_logins reviewers).map formatUserLine) ++
        ["\n".data] = _
    rw [hfa, hfr]
    decide
  · intro a r
    show (formatSectionTitle ("Contributors".data) 2 ++ ["\n".data] ++
        [natStr (filteredUsers f.ignored_user_logins a).length ++
          " authors added to this release (alphabetically):\n".data, "\n".data] ++
        sortLines ((filteredUsers f.ignored_user_logins a).map formatUserLine) ++
        ["\n".data] ++
        [natStr (filteredUsers f.ignored_user_logins r).length ++
          " reviewers added to this release (alphabetically):\n".data, "\n".data] ++
        sortLines ((filteredUsers f.ignored_user_logins r).map formatUserLine) ++
        ["\n".data]).take 2 = _
    simp only [formatSectionTitle, List.append_assoc, List.singleton_append,
      List.cons_append, List.nil_append, List.take_succ_cons, List.take_zero]
    decide

theorem c10_contributors_unconditional_witness :
    ((∀ u ∈ [wUserBot], u.login ∈ wFmt.ignored_user_logins) ∧
      (∀ u ∈ ([] : List NamedUser), u.login ∈ wFmt.ignored_user_logins)) ∧
    (formatContributorSection wFmt [wUserBot] [] =
      ["## Contributors\n".data, "\n".data,
        "0 authors added to this release (alphabetically):\n".data, "\n".data,
        "\n".data,
        "0 reviewers added to this release (alphabetically):\n".data, "\n".data,
        "\n".data]
    ∧ (∀ a r : List NamedUser,
        (formatContributorSection wFmt a r).take 2 =
          ["## Contributors\n".data, "\n".data])
    ∧ (∀ t : Str, formatChangeSection t ([] : List ChangeNote) = [])) :=
  ⟨⟨by decide, by decide⟩,
    c10_contributors_unconditional wFmt [wUserBot] [] (by decide) (by decide)⟩
